import Mathlib

/-!
Verification development for the spacetime-crawler4py repository.

The crawler's core (URL validator/canonicalizer in `scraper.py`, durable
frontier with politeness in `crawler/frontier.py`, worker loop in
`crawler/worker.py`, and the draft variants in `utils/Frontier.py` and
`utils/Worker.py`) is shallowly embedded below.  Pure functions become Lean
functions; the module-level mutable state of `scraper.py` (the `seen_urls`
set, the fingerprint set) and the frontier's shelve store and queue become
explicit state passed in and out.  External collaborators (the network
fetch, BeautifulSoup extraction, chardet) are inputs to the embedded
functions, exactly at the boundary the code consumes them.
-/

namespace Crawler

/-! ## Character-list string utilities -/

/-- Lowercase every character (models Python `str.lower` for the ASCII
URLs this crawler handles). -/
def lowerCL (l : List Char) : List Char := l.map Char.toLower

/-- `startsWithCL pat l` is true when `pat` is a prefix of `l`. -/
def startsWithCL : List Char → List Char → Bool
  | [], _ => true
  | _ :: _, [] => false
  | p :: ps, c :: cs => p == c && startsWithCL ps cs

/-- `endsWithCL pat l` is true when `pat` is a suffix of `l`. -/
def endsWithCL (pat l : List Char) : Bool :=
  startsWithCL pat.reverse l.reverse

/-- Split a character list on a separator character; models Python
`str.split(sep)` (so the empty string splits to `[[]]`). -/
def splitOnCL (sep : Char) : List Char → List (List Char)
  | [] => [[]]
  | c :: cs =>
    if c == sep then
      [] :: splitOnCL sep cs
    else
      match splitOnCL sep cs with
      | [] => [[c]]
      | hd :: tl => (c :: hd) :: tl

/-- Characters before the first occurrence of `sep` (whole list if absent). -/
def beforeCharCL (sep : Char) : List Char → List Char
  | [] => []
  | c :: cs => if c == sep then [] else c :: beforeCharCL sep cs

/-- Characters after the first occurrence of `sep`
(empty if `sep` is absent). -/
def afterCharCL (sep : Char) : List Char → List Char
  | [] => []
  | c :: cs => if c == sep then cs else afterCharCL sep cs

/-- Whether `sep` occurs in the list. -/
def containsCharCL (sep : Char) : List Char → Bool
  | [] => false
  | c :: cs => c == sep || containsCharCL sep cs

/-- Python `str.isdigit` on a segment: nonempty and all digits. -/
def isDigitStrCL (l : List Char) : Bool :=
  !l.isEmpty && l.all Char.isDigit

/-- Maximal leading run of digit characters. -/
def digitsTakeCL : List Char → List Char
  | [] => []
  | c :: cs => if c.isDigit then c :: digitsTakeCL cs else []

/-- Numeric value of a digit-character list (decimal). -/
def natOfDigitsCL (l : List Char) : Nat :=
  l.foldl (fun acc c => 10 * acc + (c.toNat - 48)) 0

/-- Join character lists with a separator character between them. -/
def joinWithCL (sep : Char) : List (List Char) → List Char
  | [] => []
  | [x] => x
  | x :: y :: rest => x ++ sep :: joinWithCL sep (y :: rest)

/-! ## URL parsing (models Python `urllib.parse` for the URL shapes the
crawler handles: no `;`-params, no percent-escapes) -/

/-- Result of `urllib.parse.urlparse`: scheme (lowercased), netloc, path,
query, fragment.  The `params` component is always empty for the URLs this
crawler handles and is omitted. -/
structure ParsedUrl where
  scheme : List Char
  netloc : List Char
  path : List Char
  query : List Char
  fragment : List Char
deriving DecidableEq, Repr

/-- A valid scheme per `urlparse`: nonempty, starts with a letter, the rest
letters, digits, `+`, `-` or `.`. -/
def isSchemeCL : List Char → Bool
  | [] => false
  | c :: cs => c.isAlpha && cs.all (fun d => d.isAlphanum || d == '+' || d == '-' || d == '.')

/-- Models `urllib.parse.urlparse`: split off the fragment at the first
`#`, the scheme before the first `:` (when well-formed, lowercased), the
netloc after a leading `//` up to the next `/` or `?`, and the query after
the first `?`. -/
def parseUrlCL (url : List Char) : ParsedUrl :=
  let frag := afterCharCL '#' url
  let rest0 := beforeCharCL '#' url
  let schemePart := beforeCharCL ':' rest0
  let hasColon := containsCharCL ':' rest0
  let (scheme, rest1) :=
    if hasColon && isSchemeCL schemePart then
      (lowerCL schemePart, afterCharCL ':' rest0)
    else
      (([] : List Char), rest0)
  let (netloc, rest2) :=
    if startsWithCL ['/', '/'] rest1 then
      let r := rest1.drop 2
      (r.takeWhile (fun c => !(c == '/' || c == '?')),
       r.dropWhile (fun c => !(c == '/' || c == '?')))
    else
      (([] : List Char), rest1)
  let path := beforeCharCL '?' rest2
  let query := if containsCharCL '?' rest2 then afterCharCL '?' rest2 else []
  ⟨scheme, netloc, path, query, frag⟩

/-- `urlparse` on `String`s. -/
def parseUrl (url : String) : ParsedUrl := parseUrlCL url.toList

/-- Models `urllib.parse.urlunparse` with empty params and fragment, for
paths that are empty or begin with `/` (the only shapes produced by
`urlparse` on the crawler's URLs): rebuild
`scheme://netloc/path?query`. -/
def urlunparseCL (scheme netloc path query : List Char) : List Char :=
  let u0 := if !netloc.isEmpty || startsWithCL ['/', '/'] path then
              '/' :: '/' :: (netloc ++ path)
            else path
  let u1 := if !scheme.isEmpty then scheme ++ ':' :: u0 else u0
  if !query.isEmpty then u1 ++ '?' :: query else u1

/-- Models `urllib.parse.parse_qsl` with default arguments on queries
without percent-escapes: split on `&`, keep only `name=value` pieces with a
nonempty value. -/
def parse_qslCL (query : List Char) : List (List Char × List Char) :=
  (splitOnCL '&' query).filterMap (fun piece =>
    if piece.isEmpty then none
    else if containsCharCL '=' piece then
      let v := afterCharCL '=' piece
      if v.isEmpty then none else some (beforeCharCL '=' piece, v)
    else none)

/-- Lexicographic `≤` on character lists by code point (models Python
string comparison). -/
def lexLeCL : List Char → List Char → Bool
  | [], _ => true
  | _ :: _, [] => false
  | a :: as, b :: bs =>
    if a.toNat < b.toNat then true
    else if a.toNat > b.toNat then false
    else lexLeCL as bs

/-- `≤` on `(key, value)` pairs as Python compares tuples of strings. -/
def pairLeCL (p q : List Char × List Char) : Bool :=
  if p.1 = q.1 then lexLeCL p.2 q.2 else lexLeCL p.1 q.1

/-- Insert into a sorted list (helper for the stable sort below). -/
def insertSortedQP (x : List Char × List Char) :
    List (List Char × List Char) → List (List Char × List Char)
  | [] => [x]
  | y :: ys => if pairLeCL x y then x :: y :: ys else y :: insertSortedQP x ys

/-- Models Python `sorted` on the query-parameter pairs. -/
def sortQP : List (List Char × List Char) → List (List Char × List Char)
  | [] => []
  | x :: xs => insertSortedQP x (sortQP xs)

/-- Models `urllib.parse.urlencode` on already-plain pairs:
`k=v` pieces joined by `&`. -/
def urlencodeCL (ps : List (List Char × List Char)) : List Char :=
  joinWithCL '&' (ps.map (fun p => p.1 ++ '=' :: p.2))

/-! ## `scraper.normalize_url` and `scraper.is_valid`
(src/scraper.py; the source's line `parsed = urlparse(url)ss.` carries a
stray `ss.` typo and is embedded as its evident intent
`parsed = urlparse(url)`) -/

/-- The query parameters `normalize_url` drops. -/
def unwanted_params : List (List Char) :=
  ["tab_details".toList, "tab_files".toList]

/-- `scraper.normalize_url` on character lists: parse, drop
`tab_details`/`tab_files` query parameters, sort the remaining parameters,
reassemble without the fragment. -/
def normalize_urlCL (url : List Char) : List Char :=
  let parsed := parseUrlCL url
  let query_params := parse_qslCL parsed.query
  let filtered_params := query_params.filter (fun kv => !unwanted_params.contains kv.1)
  let sorted_params := sortQP filtered_params
  let new_query := urlencodeCL sorted_params
  urlunparseCL parsed.scheme parsed.netloc parsed.path new_query

/-- `scraper.normalize_url` on `String`s. -/
def normalize_url (url : String) : String :=
  ⟨normalize_urlCL url.toList⟩

/-- The blocked file-extension alternation of `is_valid`'s regex
(with `jpe?g` expanded to `jpeg`/`jpg` and `tiff?` to `tiff`/`tif`). -/
def blockedExtensions : List (List Char) :=
  (["css", "js", "bmp", "gif", "jpeg", "jpg", "ico",
    "png", "tiff", "tif", "mid", "mp2", "mp3", "mp4",
    "wav", "avi", "mov", "mpeg", "ram", "m4v", "mkv", "ogg", "ogv", "pdf",
    "ps", "eps", "tex", "ppt", "pptx", "doc", "docx", "xls", "xlsx", "names",
    "data", "dat", "exe", "bz2", "tar", "msi", "bin", "7z", "psd", "dmg", "iso",
    "epub", "dll", "cnf", "tgz", "sha1",
    "thmx", "mso", "arff", "rtf", "jar", "csv",
    "rm", "smil", "wmv", "swf", "wma", "zip", "rar", "gz"]).map String.toList

/-- Models `re.search(r"/page/(\d+)", path)`: the number of the leftmost
`/page/<digits>` occurrence, if any. -/
def findPageNumberCL : List Char → Option Nat
  | [] => none
  | c :: cs =>
    if startsWithCL "/page/".toList (c :: cs)
        && (match (c :: cs).drop 6 with
            | [] => false
            | d :: _ => d.isDigit) then
      some (natOfDigitsCL (digitsTakeCL ((c :: cs).drop 6)))
    else
      findPageNumberCL cs

/-- The pagination-trap check of `is_valid`: reject a leftmost
`/page/<n>` with `n > 50`. -/
def pageCapOkCL (pathLower : List Char) : Bool :=
  match findPageNumberCL pathLower with
  | some n => decide (n ≤ 50)
  | none => true

/-- The numeric-segment check of `is_valid`: at most two all-digit path
segments. -/
def numericTokensOkCL (path : List Char) : Bool :=
  decide (((splitOnCL '/' path).filter isDigitStrCL).length ≤ 2)

/-- The extension check of `is_valid`: the lowercased path does not end in
a dot followed by a blocked extension. -/
def extensionOkCL (pathLower : List Char) : Bool :=
  !(blockedExtensions.any (fun e => endsWithCL ('.' :: e) pathLower))

/-- The stateless part of `scraper.is_valid`, applied to the normalized
URL: allowed scheme, pagination cap, numeric-segment cap, extension
block-list — in the source's order.  Note the source performs no
host/domain check. -/
def is_valid_pure (normalized : String) : Bool :=
  let parsed := parseUrlCL normalized.toList
  (parsed.scheme == "http".toList || parsed.scheme == "https".toList)
  && pageCapOkCL (lowerCL parsed.path)
  && numericTokensOkCL parsed.path
  && extensionOkCL (lowerCL parsed.path)

/-- `scraper.is_valid`, with the module-global `seen_urls` set made an
explicit argument and result: normalize, reject and record already-seen
normalized URLs, then run the stateless checks. -/
def is_valid (seen : List String) (url : String) : Bool × List String :=
  let normalized := normalize_url url
  if normalized ∈ seen then (false, seen)
  else (is_valid_pure normalized, normalized :: seen)

example : (is_valid [] "https://www.ics.uci.edu/about/index.html").1 = true := by decide
example : (is_valid [] "ftp://www.ics.uci.edu/a.html").1 = false := by decide
example : (is_valid [] "https://www.ics.uci.edu/doc/report.pdf").1 = false := by decide
example : (is_valid [] "https://www.ics.uci.edu/blog/page/120").1 = false := by decide
example : (is_valid [] "https://www.ics.uci.edu/blog/page/12").1 = true := by decide
example : (is_valid [] "https://evil.com/a.html").1 = true := by decide
example : normalize_url "https://a.com/p#frag" = "https://a.com/p" := by decide
example : normalize_url "https://a.com/p?b=2&a=1&tab_files=x" = "https://a.com/p?a=1&b=2" := by
  decide

/-! ## The durable frontier (src/crawler/frontier.py)

`Frontier.add_url` and `Frontier.mark_url_complete` use `normalize` and
`get_urlhash` from the `utils` package, whose source is not in the
repository snapshot; they are modelled from the spec below.  The shelve
store becomes an association list of entries, the pending `Queue` becomes
the list of URLs ever put (puts append at the tail). -/

/-- Modelled from the spec: `utils.normalize`, the canonicalization the
Frontier applies before hashing — "a URL normalized by fragment removal
and filtered/sorted query parameters, used as the dedup key" (Glossary),
which is exactly the `normalize_url` canonicalization of §4.3. -/
def normalize (url : String) : String := normalize_url url

/-- Modelled from the spec: `utils.get_urlhash` — "`hashKey` is a stable
digest of the canonical form" (§3).  Modelled as the canonical string
itself: a stable, collision-free digest, which is all the spec relies
on. -/
def get_urlhash (url : String) : String := url

/-- One record of the shelve store: `save[urlhash] = (url, completed)`. -/
structure SaveEntry where
  key : String
  url : String
  completed : Bool
deriving DecidableEq, Repr

/-- Frontier state: the shelve store and the pending queue (modelled as
the full history of puts, appended at the tail). -/
structure FrState where
  save : List SaveEntry
  queue : List String
deriving DecidableEq, Repr

/-- `urlhash in self.save`. -/
def saveHasKey (save : List SaveEntry) (k : String) : Bool :=
  save.any (fun e => e.key == k)

/-- `self.save[urlhash]`, as an option. -/
def saveLookup : List SaveEntry → String → Option (String × Bool)
  | [], _ => none
  | e :: rest, k => if e.key = k then some (e.url, e.completed) else saveLookup rest k

/-- `self.save[urlhash] = (url, completed)`: replace the entry in place if
the key exists, otherwise append. -/
def saveUpsert (k u : String) (c : Bool) : List SaveEntry → List SaveEntry
  | [] => [⟨k, u, c⟩]
  | e :: rest => if e.key = k then ⟨k, u, c⟩ :: rest else e :: saveUpsert k u c rest

/-- `Frontier.add_url`: normalize, hash, and only when the hash is not in
the store, insert `(url, False)`, sync, and put the URL on the queue. -/
def add_url (s : FrState) (url0 : String) : FrState :=
  let url := normalize url0
  let urlhash := get_urlhash url
  if saveHasKey s.save urlhash then s
  else { save := s.save ++ [⟨urlhash, url, false⟩], queue := s.queue ++ [url] }

/-- `Frontier.mark_url_complete`: hash the URL exactly as given (no
normalization) and unconditionally store `(url, True)` under that hash
(the missing-key case is only logged). -/
def mark_url_complete (s : FrState) (url : String) : FrState :=
  let urlhash := get_urlhash url
  { save := saveUpsert urlhash url true s.save, queue := s.queue }

/-- `Frontier._parse_save_file`: scan the store; every record with
`completed = false` whose URL passes `is_valid` (threading the scraper's
`seen_urls` state) is put on the queue. -/
def parseSaveFile : List SaveEntry → List String → List String × List String
  | [], seen => ([], seen)
  | e :: rest, seen =>
    if e.completed then parseSaveFile rest seen
    else
      let (b, seen') := is_valid seen e.url
      let (q, seen'') := parseSaveFile rest seen'
      (if b then e.url :: q else q, seen'')

/-- `Frontier.__init__`: with `restart` the store is deleted and the seeds
are added; otherwise the store is scanned and, if the scan queued nothing,
the seeds are added as a fallback.  `seen` is the scraper module's
`seen_urls` state (empty after a process restart). -/
def frontierInit (save : List SaveEntry) (seeds : List String) (restart : Bool)
    (seen : List String) : FrState :=
  if restart then
    seeds.foldl add_url ⟨[], []⟩
  else
    let (queued, _) := parseSaveFile save seen
    let s0 : FrState := ⟨save, queued⟩
    if queued.isEmpty then seeds.foldl add_url s0 else s0

/-- The two ledger-mutating frontier operations of claim C8. -/
inductive FrontierLedgerOp where
  | add (u : String)
  | markComplete (u : String)
deriving DecidableEq, Repr

/-- Execute one ledger operation. -/
def execOp (s : FrState) : FrontierLedgerOp → FrState
  | .add u => add_url s u
  | .markComplete u => mark_url_complete s u

/-- Execute a sequence of ledger operations from the empty frontier. -/
def execOps (ops : List FrontierLedgerOp) : FrState :=
  ops.foldl execOp ⟨[], []⟩

example : (execOps [.add "https://a.com/x", .markComplete "https://a.com/x"]).save
    = [⟨"https://a.com/x", "https://a.com/x", true⟩] := by decide
example :
    saveLookup (execOps [.add "https://a.com/p#f", .markComplete "https://a.com/p#f"]).save
      "https://a.com/p" = some ("https://a.com/p", false) := by decide
example :
    saveLookup (execOps [.add "https://a.com/p#f", .markComplete "https://a.com/p#f"]).save
      "https://a.com/p#f" = some ("https://a.com/p#f", true) := by decide

/-! ## Responses and the scraper pipeline (src/scraper.py)

The network fetch, chardet decoding and BeautifulSoup extraction are
external collaborators (spec §6): the page text (`soup.get_text`) and the
anchor `href`s (`soup.find_all("a", href=True)`) computed from the fetched
content are inputs to the embedded functions. -/

/-- `utils.response.Response.raw_response` as the worker and scraper
consume it: the content bytes (as a string) and the `Content-Length`
header when present. -/
structure RawResponse where
  content : String
  contentLengthHeader : Option String
deriving DecidableEq, Repr

/-- `utils.response.Response` as consumed: a status and an optional raw
response. -/
structure Response where
  status : Nat
  raw_response : Option RawResponse
deriving DecidableEq, Repr

/-- Models Python `int(header)` on a decimal string with optional sign,
`none` for a `ValueError`. -/
def parsePyInt (s : String) : Option Int :=
  match s.toList with
  | [] => none
  | '-' :: ds => if isDigitStrCL ds then some (-(natOfDigitsCL ds : Int)) else none
  | ds => if isDigitStrCL ds then some ((natOfDigitsCL ds : Int)) else none

/-- `scraper.MAX_FILE_SIZE`. -/
def MAX_FILE_SIZE : Int := 10 * 1024 * 1024

/-- `scraper.MIN_TEXT_LENGTH`. -/
def MIN_TEXT_LENGTH : Nat := 100

/-- Models `hashlib.md5(text).hexdigest()` as a stable injective digest of
the text: the text itself.  Only equality of digests is ever consulted. -/
def md5Digest (text : String) : String := text

/-- Models `urllib.parse.urljoin` for the href shapes the theorems use:
an absolute URL is kept, a `//`-prefixed href takes the base scheme, a
`/`-prefixed href is resolved against the base authority. -/
def urljoin (base href : String) : String :=
  let hp := parseUrl href
  if !hp.scheme.isEmpty then href
  else
    let bp := parseUrl base
    if startsWithCL ['/', '/'] href.toList then ⟨bp.scheme ++ ':' :: href.toList⟩
    else if startsWithCL ['/'] href.toList then
      ⟨bp.scheme ++ ':' :: '/' :: '/' :: bp.netloc ++ href.toList⟩
    else href

/-- `scraper.extract_next_links`, with the module-global
`seen_page_fingerprints` set explicit and the extraction collaborator's
outputs (`pageText`, `hrefs`) as inputs: status must be 200, a parsable
`Content-Length` header must not exceed `MAX_FILE_SIZE`, the content must
be nonempty, the text must reach `MIN_TEXT_LENGTH`, and the text's digest
must be fresh; then every href is resolved against the base URL.  (The
per-domain sleep only delays; it is timing, not data, and is omitted.) -/
def extract_next_links (url : String) (resp : Response) (pageText : String)
    (hrefs : List String) (fps : List String) : List String × List String :=
  if resp.status ≠ 200 then ([], fps)
  else
    match resp.raw_response with
    | none => ([], fps)
    | some raw =>
      let sizeRejected :=
        match raw.contentLengthHeader with
        | some h =>
          match parsePyInt h with
          | some n => decide (n > MAX_FILE_SIZE)
          | none => false
        | none => false
      if sizeRejected then ([], fps)
      else if raw.content = "" then ([], fps)
      else if pageText.length < MIN_TEXT_LENGTH then ([], fps)
      else
        let fingerprint := md5Digest pageText
        if fingerprint ∈ fps then ([], fps)
        else (hrefs.map (urljoin url), fingerprint :: fps)

/-- The scraper's module state: the fingerprint set of
`extract_next_links` and the `seen_urls` set of `is_valid`. -/
structure ScraperState where
  fingerprints : List String
  seenUrls : List String
deriving DecidableEq, Repr

/-- The list comprehension `[link for link in links if is_valid(link)]`,
threading the `seen_urls` state through the calls in order. -/
def validFilter : List String → List String → List String × List String
  | [], seen => ([], seen)
  | l :: rest, seen =>
    let (b, seen') := is_valid seen l
    let (kept, seen'') := validFilter rest seen'
    (if b then l :: kept else kept, seen'')

/-- A Python value returned by a scraper, as `crawler/worker.py` inspects
it with `isinstance(result, tuple) and len(result) == 3`: either a flat
list of links (what `scraper.scraper` actually returns) or a 3-tuple
`(scraped_urls, page_simhash, text_content)` (what the worker expects). -/
inductive ScrapeResult where
  | pyList (links : List String)
  | pyTuple3 (links : List String) (simhash : Nat) (text : String)
deriving DecidableEq, Repr

/-- `scraper.scraper`: extract links, filter them through `is_valid`, and
return them as a flat Python list. -/
def scraper (url : String) (resp : Response) (pageText : String)
    (hrefs : List String) (st : ScraperState) : ScrapeResult × ScraperState :=
  let (links, fps') := extract_next_links url resp pageText hrefs st.fingerprints
  let (kept, seen') := validFilter links st.seenUrls
  (.pyList kept, ⟨fps', seen'⟩)

/-! ## Fingerprints (spec §4.4)

`crawler/frontier.py` imports `hamming_distance` from `scraper`, and
`crawler/worker.py` expects a `page_simhash` from the scraper, but neither
function exists anywhere in the repository snapshot; both are modelled
from the spec. -/

/-- Number of set bits, by structural recursion on a fuel bound (the fuel
`n` always suffices since `n / 2` at least halves). -/
def popcountAux : Nat → Nat → Nat
  | 0, _ => 0
  | fuel + 1, n => if n = 0 then 0 else n % 2 + popcountAux fuel (n / 2)

/-- Number of set bits. -/
def popcount (n : Nat) : Nat := popcountAux n n

/-- Modelled from the spec: `hamming_distance` (imported by
`crawler/frontier.py` but absent from `scraper.py`) — "population count of
the bitwise XOR of two fingerprints" (§4.4). -/
def hamming_distance (a b : Nat) : Nat := popcount (a ^^^ b)

/-- Modelled from the spec: the per-token "wide hash" of the simhash
construction (§4.4); any fixed deterministic 64-bit token hash fits, here
a polynomial rolling hash mod 2^64. -/
def tokenHash (t : String) : Nat :=
  t.toList.foldl (fun acc c => (acc * 131 + c.toNat) % (2 ^ 64)) 7

/-- Tokenize on whitespace (spec §4.4: "tokenize text on whitespace"). -/
def tokenize (text : String) : List String :=
  ((splitOnCL ' ' text.toList).filter (fun t => !t.isEmpty)).map (fun l => ⟨l⟩)

/-- Majority vote for bit `i` over the token hashes: +1 when set, −1 when
clear; the fingerprint bit is set iff the sum is positive. -/
def bitVote (hashes : List Nat) (i : Nat) : Int :=
  hashes.foldl (fun acc h => if h / 2 ^ i % 2 = 1 then acc + 1 else acc - 1) 0

/-- Modelled from the spec: the simhash `fingerprint(text)` (§4.4) — a
64-bit fingerprint whose bit `i` is set iff the majority vote for bit `i`
across the whitespace tokens' wide hashes is positive. -/
def fingerprint (text : String) : Nat :=
  let hashes := (tokenize text).map tokenHash
  (List.range 64).foldl (fun acc i => if bitVote hashes i > 0 then acc + 2 ^ i else acc) 0

/-! ## The worker loops (src/crawler/worker.py and src/utils/Worker.py) -/

/-- The outcome of `download(url, config)`: a response, or an exception. -/
inductive DownloadResult where
  | ok (resp : Response)
  | exn
deriving DecidableEq, Repr

/-- A call a worker makes on the frontier during one iteration. -/
inductive FrontierCall where
  | enqueue (u : String)
  | addSimhash (u : String) (h : Nat)
  | markComplete (u : String)
deriving DecidableEq, Repr

/-- `Frontier.is_similar`: some stored simhash is within Hamming distance
`threshold` (default 3) of the new one. -/
def is_similar (simhashes : List Nat) (newSimhash : Nat) (threshold : Nat := 3) : Bool :=
  simhashes.any (fun sim => hamming_distance sim newSimhash < threshold)

/-- One iteration of `crawler.worker.Worker.run` for a claimed URL, as the
list of frontier calls it issues (plus the updated scraper state).
Faithful to the source's branch order: download exception → mark complete;
missing `raw_response` → mark complete; content length under 200 or over
5000000 → mark complete; on status 200 run the scraper inside `try`
(`scrapeRaises` models an exception escaping `scraper.scraper`, which is
absorbed); a result that is not a 3-tuple is logged as "no valid result";
a 3-tuple is checked against `is_similar`, recorded, and its links
enqueued; finally the URL is marked complete. -/
def workerIteration (url : String) (dl : DownloadResult) (pageText : String)
    (hrefs : List String) (scrapeRaises : Bool) (st : ScraperState)
    (simhashes : List Nat) : List FrontierCall × ScraperState :=
  match dl with
  | .exn => ([.markComplete url], st)
  | .ok resp =>
    match resp.raw_response with
    | none => ([.markComplete url], st)
    | some raw =>
      let content_length := raw.content.length
      if content_length < 200 then ([.markComplete url], st)
      else if content_length > 5000000 then ([.markComplete url], st)
      else if resp.status = 200 then
        if scrapeRaises then ([.markComplete url], st)
        else
          let (result, st') := scraper url resp pageText hrefs st
          match result with
          | .pyTuple3 scraped_urls page_simhash _ =>
            if is_similar simhashes page_simhash then ([.markComplete url], st')
            else
              ((.addSimhash url page_simhash) ::
                scraped_urls.map FrontierCall.enqueue ++ [.markComplete url], st')
          | .pyList _ => ([.markComplete url], st')
      else ([.markComplete url], st)

/-- One iteration of `utils.Worker.Worker.run` for a claimed URL.  The
draft has no `try`/`except`: a download exception propagates and kills the
thread, modelled as `Except.error`; otherwise every scraped link is added
and the URL is marked complete. -/
def utilsWorkerIteration (url : String) (dl : DownloadResult) (pageText : String)
    (hrefs : List String) (st : ScraperState) :
    Except Unit (List FrontierCall × ScraperState) :=
  match dl with
  | .exn => .error ()
  | .ok resp =>
    let (result, st') := scraper url resp pageText hrefs st
    match result with
    | .pyList links => .ok (links.map FrontierCall.enqueue ++ [.markComplete url], st')
    | .pyTuple3 links _ _ => .ok (links.map FrontierCall.enqueue ++ [.markComplete url], st')

/-! ## Politeness (Frontier.get_tbd_url, src/crawler/frontier.py)

Each pass through the `while True` loop is one attempt made at a time
`now` (Python `time.time()`, here in milliseconds): pop the head of the
queue; if the head's domain was accessed less than 500 ms ago, requeue it
at the tail and try again later; otherwise record the access time and
return it. -/

/-- The 500 ms minimum per-domain delay of `get_tbd_url`
(`wait_time = 0.5 - (now - last_access)`). -/
def POLITENESS_MS : Nat := 500

/-- `urlparse(url).netloc`, the per-domain key. -/
def domainOf (u : String) : String := ⟨(parseUrl u).netloc⟩

/-- `self.domain_last_access.get(domain, 0)`. -/
def lookupLast : List (String × Nat) → String → Nat
  | [], _ => 0
  | (k, v) :: rest, d => if k = d then v else lookupLast rest d

/-- `self.domain_last_access[domain] = now`. -/
def setLast : List (String × Nat) → String → Nat → List (String × Nat)
  | [], d, t => [(d, t)]
  | (k, v) :: rest, d, t => if k = d then (d, t) :: rest else (k, v) :: setLast rest d t

/-- State of `get_tbd_url`: the pending queue and the per-domain
last-access clock. -/
structure PoliteState where
  queue : List String
  last : List (String × Nat)
deriving DecidableEq, Repr

/-- Run `get_tbd_url` loop attempts at the given (nondecreasing) times,
collecting the `(time, url)` pairs actually returned to workers.  An empty
queue yields nothing for that attempt (the `Empty` timeout path). -/
def getAttempts : PoliteState → List Nat → List (Nat × String)
  | _, [] => []
  | s, now :: rest =>
    match s.queue with
    | [] => getAttempts s rest
    | u :: q =>
      let d := domainOf u
      if now < lookupLast s.last d + POLITENESS_MS then
        getAttempts ⟨q ++ [u], s.last⟩ rest
      else
        (now, u) :: getAttempts ⟨q, setLast s.last d now⟩ rest

/-- Nondecreasing list of attempt times. -/
def isMonotone : List Nat → Bool
  | [] => true
  | [_] => true
  | a :: b :: rest => decide (a ≤ b) && isMonotone (b :: rest)

example : hamming_distance 12 10 = 2 := by decide
example : is_similar [12] 10 = true := by decide
example : is_similar [12] 3 = false := by decide

/-! ## Claim theorems -/

/-- C9: the distance function of the near-duplicate test satisfies
`distance(f, f) = 0` and `distance(f1, f2) = distance(f2, f1)`, and
fingerprinting two identical texts yields equal fingerprints. -/
theorem fingerprint_distance_properties (f f1 f2 : Nat) (t : String) :
    hamming_distance f f = 0 ∧
    hamming_distance f1 f2 = hamming_distance f2 f1 ∧
    fingerprint t = fingerprint t := by
  refine ⟨?_, ?_, rfl⟩
  · show popcount (f ^^^ f) = 0
    rw [Nat.xor_self]
    rfl
  · show popcount (f1 ^^^ f2) = popcount (f2 ^^^ f1)
    rw [Nat.xor_comm]

/-- C4, counterexample: `is_valid` is not pure — two back-to-back calls on
the same URL disagree, because the first call records the normalized URL
in the module-global `seen_urls` set.  The first call on
`https://www.ics.uci.edu/index.html` returns true, the immediately
following call on the same URL returns false. -/
theorem is_valid_not_pure_counterexample :
    (is_valid [] "https://www.ics.uci.edu/index.html").1 = true ∧
    (is_valid (is_valid [] "https://www.ics.uci.edu/index.html").2
        "https://www.ics.uci.edu/index.html").1 = false := by decide

/-- C4, amended: `is_valid` is deterministic as a function of the
`seen_urls` state and the URL, but it is stateful, not pure: it records
the normalized URL, so for every state and every URL the second of two
back-to-back calls returns false. -/
theorem is_valid_second_call_false (seen : List String) (url : String) :
    (is_valid (is_valid seen url).2 url).1 = false := by
  unfold is_valid
  by_cases h : normalize_url url ∈ seen
  · simp [h]
  · simp [h]

/-- C3, counterexample: contrary to the claim, `is_valid` performs no
allowed-domain check at all — a URL on `evil.com`, a host outside any
configured UCI domain set, is accepted. -/
theorem is_valid_no_host_check_counterexample :
    (is_valid [] "https://evil.com/a.html").1 = true := by decide

/-- Unfolding equation for `is_valid`. -/
theorem is_valid_eq (seen : List String) (url : String) :
    is_valid seen url =
      if normalize_url url ∈ seen then (false, seen)
      else (is_valid_pure (normalize_url url), normalize_url url :: seen) := rfl

/-- Unfolding equation for `is_valid_pure`, in terms of `parseUrl`. -/
theorem is_valid_pure_eq (n : String) :
    is_valid_pure n =
      (((parseUrl n).scheme == "http".toList || (parseUrl n).scheme == "https".toList)
        && pageCapOkCL (lowerCL (parseUrl n).path)
        && numericTokensOkCL (parseUrl n).path
        && extensionOkCL (lowerCL (parseUrl n).path)) := rfl

/-- C3, amended: `is_valid` rejects a non-http(s) scheme, a leftmost
`/page/<n>` with `n > 50`, and a blocked-extension path suffix such as
`.pdf`/`.zip`; it accepts an https URL with a fresh normalized form whose
path passes the pagination, numeric-segment and extension checks —
regardless of host, since the code has no allowed-domain check. -/
theorem is_valid_rejection_table :
    (∀ (seen : List String) (url : String),
      (parseUrl (normalize_url url)).scheme ∉ ["http".toList, "https".toList] →
      (is_valid seen url).1 = false) ∧
    (∀ (seen : List String) (url : String) (n : Nat),
      findPageNumberCL (lowerCL (parseUrl (normalize_url url)).path) = some n →
      50 < n →
      (is_valid seen url).1 = false) ∧
    (∀ (seen : List String) (url : String),
      extensionOkCL (lowerCL (parseUrl (normalize_url url)).path) = false →
      (is_valid seen url).1 = false) ∧
    (∀ (seen : List String) (url : String),
      normalize_url url ∉ seen →
      (parseUrl (normalize_url url)).scheme = "https".toList →
      pageCapOkCL (lowerCL (parseUrl (normalize_url url)).path) = true →
      numericTokensOkCL (parseUrl (normalize_url url)).path = true →
      extensionOkCL (lowerCL (parseUrl (normalize_url url)).path) = true →
      (is_valid seen url).1 = true) := by
  refine ⟨?_, ?_, ?_, ?_⟩
  · intro seen url h
    rw [is_valid_eq]
    by_cases hs : normalize_url url ∈ seen
    · simp [hs]
    · simp only [hs, if_false]
      rw [is_valid_pure_eq]
      simp only [List.mem_cons, List.not_mem_nil, or_false, not_or] at h
      have hb1 : ((parseUrl (normalize_url url)).scheme == "http".toList) = false :=
        beq_eq_false_iff_ne.mpr h.1
      have hb2 : ((parseUrl (normalize_url url)).scheme == "https".toList) = false :=
        beq_eq_false_iff_ne.mpr h.2
      rw [hb1, hb2]
      rfl
  · intro seen url n hfind hn
    rw [is_valid_eq]
    by_cases hs : normalize_url url ∈ seen
    · simp [hs]
    · simp only [hs, if_false]
      rw [is_valid_pure_eq]
      have hpage : pageCapOkCL (lowerCL (parseUrl (normalize_url url)).path) = false := by
        unfold pageCapOkCL
        rw [hfind]
        simp
        omega
      simp [hpage]
  · intro seen url h
    rw [is_valid_eq]
    by_cases hs : normalize_url url ∈ seen
    · simp [hs]
    · simp only [hs, if_false]
      rw [is_valid_pure_eq]
      simp [h]
  · intro seen url hfresh hscheme hpage hnum hext
    rw [is_valid_eq]
    simp only [hfresh, if_false]
    rw [is_valid_pure_eq]
    simp [hscheme, hpage, hnum, hext]

/-- Witness for C3's amended theorem: concrete instances of all four
parts — `ftp://` rejected, `/page/120` rejected, `.zip` rejected, and an
in-scope-style https `.html` URL without disallowed query parameters
accepted. -/
theorem is_valid_rejection_table_witness :
    (is_valid [] "ftp://www.ics.uci.edu/a.html").1 = false ∧
    (is_valid [] "https://www.ics.uci.edu/blog/page/120").1 = false ∧
    (is_valid [] "https://www.ics.uci.edu/files/data.zip").1 = false ∧
    (is_valid [] "https://www.ics.uci.edu/about/index.html").1 = true :=
  ⟨is_valid_rejection_table.1 [] "ftp://www.ics.uci.edu/a.html" (by decide),
   is_valid_rejection_table.2.1 [] "https://www.ics.uci.edu/blog/page/120" 120
     (by decide) (by decide),
   is_valid_rejection_table.2.2.1 [] "https://www.ics.uci.edu/files/data.zip" (by decide),
   is_valid_rejection_table.2.2.2 [] "https://www.ics.uci.edu/about/index.html"
     (by decide) (by decide) (by decide) (by decide) (by decide)⟩

/-- C1: evaluation at the failing input.  On a 200 response whose content
and extracted text pass every size and content check and whose single
extracted link passes the validator, `scraper.scraper` returns the flat
list `[link]` — but `crawler/worker.py` requires a 3-tuple
`(scraped_urls, page_simhash, text_content)`, so the worker's iteration
issues only `mark_url_complete` and never enqueues the link. -/
theorem worker_drops_all_scraper_links :
    (scraper "https://www.ics.uci.edu/"
        ⟨200, some ⟨⟨List.replicate 300 'a'⟩, none⟩⟩ ⟨List.replicate 150 'b'⟩
        ["https://www.ics.uci.edu/about/index.html"] ⟨[], []⟩).1
      = ScrapeResult.pyList ["https://www.ics.uci.edu/about/index.html"] ∧
    (workerIteration "https://www.ics.uci.edu/"
        (.ok ⟨200, some ⟨⟨List.replicate 300 'a'⟩, none⟩⟩) ⟨List.replicate 150 'b'⟩
        ["https://www.ics.uci.edu/about/index.html"] false ⟨[], []⟩ []).1
      = [FrontierCall.markComplete "https://www.ics.uci.edu/"] := by
  set_option maxRecDepth 40000 in decide

/-- C7, counterexample: in the draft worker `utils/Worker.py` there is no
`try`/`except` around the download, so a fetch exception propagates and
terminates the worker instead of being absorbed into a `markComplete`. -/
theorem utils_worker_exception_propagates :
    utilsWorkerIteration "https://www.ics.uci.edu/" .exn "" [] ⟨[], []⟩
      = Except.error () := rfl

/-- C7, amended: in the threaded crawler worker (`crawler/worker.py`),
every per-URL failure — download exception, missing raw response, content
length out of bounds, or an exception escaping the scraper — is absorbed
and converted into exactly a `mark_url_complete` call for that URL: the
iteration issues no other frontier call, never re-enqueues the URL, and
the loop continues. -/
theorem crawler_worker_absorbs_failures (url : String) (dl : DownloadResult)
    (pageText : String) (hrefs : List String) (scrapeRaises : Bool)
    (st : ScraperState) (simhashes : List Nat)
    (hfail : dl = .exn ∨
      (∃ resp, dl = .ok resp ∧ resp.raw_response = none) ∨
      (∃ resp raw, dl = .ok resp ∧ resp.raw_response = some raw ∧
        raw.content.length < 200) ∨
      (∃ resp raw, dl = .ok resp ∧ resp.raw_response = some raw ∧
        raw.content.length > 5000000) ∨
      (∃ resp, dl = .ok resp ∧ resp.status = 200 ∧ scrapeRaises = true)) :
    (workerIteration url dl pageText hrefs scrapeRaises st simhashes).1
      = [FrontierCall.markComplete url] := by
  rcases hfail with rfl | ⟨resp, rfl, hraw⟩ | ⟨resp, raw, rfl, hraw, hlen⟩ |
    ⟨resp, raw, rfl, hraw, hlen⟩ | ⟨resp, rfl, hstat, hsr⟩
  · rfl
  · obtain ⟨status, rawr⟩ := resp
    have h' : rawr = none := hraw
    subst h'
    rfl
  · obtain ⟨status, rawr⟩ := resp
    have h' : rawr = some raw := hraw
    subst h'
    simp [workerIteration, hlen]
  · obtain ⟨status, rawr⟩ := resp
    have h' : rawr = some raw := hraw
    subst h'
    have h1 : ¬ raw.content.length < 200 := by omega
    simp [workerIteration, h1, hlen]
  · obtain ⟨status, rawr⟩ := resp
    have h' : status = 200 := hstat
    subst h'
    cases rawr with
    | none => rfl
    | some raw =>
      by_cases h1 : raw.content.length < 200
      · simp [workerIteration, h1]
      · by_cases h2 : raw.content.length > 5000000
        · simp [workerIteration, h1, h2]
        · simp [workerIteration, h1, h2, hsr]

/-- Witness for C7's amended theorem: a download exception on a concrete
URL yields exactly the `mark_url_complete` call. -/
theorem crawler_worker_absorbs_failures_witness :
    (workerIteration "https://www.ics.uci.edu/" .exn "" [] false ⟨[], []⟩ []).1
      = [FrontierCall.markComplete "https://www.ics.uci.edu/"] :=
  crawler_worker_absorbs_failures "https://www.ics.uci.edu/" .exn "" [] false
    ⟨[], []⟩ [] (Or.inl rfl)


/-! ### Store lemmas for the frontier ledger -/

/-- The key sequence of a store. -/
def saveKeys (l : List SaveEntry) : List String := l.map SaveEntry.key

/-- Unfolding equation for `add_url`. -/
theorem add_url_eq (s : FrState) (u : String) :
    add_url s u =
      if saveHasKey s.save (get_urlhash (normalize u)) then s
      else { save := s.save ++ [⟨get_urlhash (normalize u), normalize u, false⟩],
             queue := s.queue ++ [normalize u] } := rfl

/-- Unfolding equation for `mark_url_complete`. -/
theorem mark_url_complete_eq (s : FrState) (u : String) :
    mark_url_complete s u =
      { save := saveUpsert (get_urlhash u) u true s.save, queue := s.queue } := rfl

theorem saveHasKey_eq_isSome (l : List SaveEntry) (k : String) :
    saveHasKey l k = (saveLookup l k).isSome := by
  induction l with
  | nil => rfl
  | cons e rest ih =>
    by_cases h : e.key = k
    · simp [saveHasKey, saveLookup, h]
    · have hb : (e.key == k) = false := beq_eq_false_iff_ne.mpr h
      show (e.key == k || saveHasKey rest k)
          = (if e.key = k then some (e.url, e.completed) else saveLookup rest k).isSome
      rw [hb, if_neg h, Bool.false_or, ih]

theorem saveLookup_none_of_hasKey_false (l : List SaveEntry) (k : String)
    (h : saveHasKey l k = false) : saveLookup l k = none := by
  rw [saveHasKey_eq_isSome] at h
  cases hl : saveLookup l k with
  | none => rfl
  | some v => rw [hl] at h; simp at h

theorem saveHasKey_false_iff (l : List SaveEntry) (k : String) :
    saveHasKey l k = false ↔ k ∉ saveKeys l := by
  simp only [saveHasKey, saveKeys, List.any_eq_false, List.mem_map]
  constructor
  · rintro h ⟨e, he, hk⟩
    exact absurd (beq_iff_eq.mpr hk) (by simpa using h e he)
  · intro h e he
    simp only [beq_iff_eq]
    intro hk
    exact h ⟨e, he, hk⟩

theorem saveLookup_append_left (l l' : List SaveEntry) (k : String) (v : String × Bool)
    (h : saveLookup l k = some v) : saveLookup (l ++ l') k = some v := by
  induction l with
  | nil => simp [saveLookup] at h
  | cons e rest ih =>
    by_cases hk : e.key = k
    · simpa [saveLookup, hk] using h
    · simp only [saveLookup, if_neg hk] at h
      simpa [saveLookup, hk] using ih h

theorem saveLookup_append_right (l l' : List SaveEntry) (k : String)
    (h : saveLookup l k = none) : saveLookup (l ++ l') k = saveLookup l' k := by
  induction l with
  | nil => rfl
  | cons e rest ih =>
    by_cases hk : e.key = k
    · simp [saveLookup, hk] at h
    · simp only [saveLookup, if_neg hk] at h
      simpa [saveLookup, hk] using ih h

theorem saveUpsert_lookup_self (k u : String) (c : Bool) (l : List SaveEntry) :
    saveLookup (saveUpsert k u c l) k = some (u, c) := by
  induction l with
  | nil => simp [saveUpsert, saveLookup]
  | cons e rest ih =>
    by_cases hk : e.key = k
    · simp [saveUpsert, saveLookup, hk]
    · simp [saveUpsert, saveLookup, hk, ih]

theorem saveUpsert_lookup_other (k u : String) (c : Bool) (l : List SaveEntry)
    (k' : String) (h : k' ≠ k) :
    saveLookup (saveUpsert k u c l) k' = saveLookup l k' := by
  induction l with
  | nil => simp [saveUpsert, saveLookup, Ne.symm h]
  | cons e rest ih =>
    by_cases hk : e.key = k
    · have hne : ¬(k = k') := Ne.symm h
      simp [saveUpsert, saveLookup, hk, hne]
    · simp [saveUpsert, saveLookup, hk, ih]

theorem saveUpsert_keys (k u : String) (c : Bool) (l : List SaveEntry) :
    saveKeys (saveUpsert k u c l)
      = (if saveHasKey l k then saveKeys l else saveKeys l ++ [k]) := by
  induction l with
  | nil => simp [saveUpsert, saveKeys, saveHasKey]
  | cons e rest ih =>
    by_cases hk : e.key = k
    · have hb : (e.key == k) = true := beq_iff_eq.mpr hk
      simp [saveUpsert, saveKeys, saveHasKey, hk, hb]
    · have hb : (e.key == k) = false := beq_eq_false_iff_ne.mpr hk
      have hunfold : saveHasKey (e :: rest) k = saveHasKey rest k := by
        show (e.key == k || saveHasKey rest k) = saveHasKey rest k
        rw [hb, Bool.false_or]
      rw [show saveUpsert k u c (e :: rest) = e :: saveUpsert k u c rest by
        simp [saveUpsert, hk]]
      rw [show saveKeys (e :: saveUpsert k u c rest)
        = e.key :: saveKeys (saveUpsert k u c rest) from rfl]
      rw [ih, hunfold]
      by_cases hr : saveHasKey rest k
      · rw [if_pos hr, if_pos hr]
        rfl
      · rw [if_neg hr, if_neg hr]
        rfl

/-! ### C5: idempotent enqueue -/

theorem add_url_twice (s : FrState) (u : String) :
    add_url (add_url s u) u = add_url s u := by
  by_cases h : saveHasKey s.save (get_urlhash (normalize u))
  · rw [add_url_eq s u, if_pos h, add_url_eq s u, if_pos h]
  · have hf : saveHasKey s.save (get_urlhash (normalize u)) = false := by
      simpa using h
    have hnone := saveLookup_none_of_hasKey_false _ _ hf
    have hsnd : saveHasKey (s.save ++ [⟨get_urlhash (normalize u), normalize u, false⟩])
        (get_urlhash (normalize u)) = true := by
      rw [saveHasKey_eq_isSome, saveLookup_append_right _ _ _ hnone]
      simp [saveLookup]
    rw [add_url_eq s u, if_neg h, add_url_eq, if_pos hsnd]

/-- C5: enqueueing a canonical URL twice from a state that does not yet
know it leaves exactly one record for its hash key in the durable store
and exactly one occurrence of it in the pending-queue history, and the
second call is a silent no-op. -/
theorem enqueue_idempotent (s : FrState) (u : String)
    (hcanon : normalize u = u)
    (hfresh : saveHasKey s.save (get_urlhash u) = false)
    (hq : s.queue.count u = 0) :
    ((add_url (add_url s u) u).save.filter (fun e => e.key == get_urlhash u)).length = 1 ∧
    (add_url (add_url s u) u).queue.count u = 1 ∧
    add_url (add_url s u) u = add_url s u := by
  have hfilter : s.save.filter (fun e => e.key == get_urlhash u) = [] := by
    rw [List.filter_eq_nil_iff]
    intro e he
    have hnotin := (saveHasKey_false_iff s.save (get_urlhash u)).mp hfresh
    simp only [beq_iff_eq]
    intro hk
    exact hnotin (List.mem_map.mpr ⟨e, he, hk⟩)
  refine ⟨?_, ?_, add_url_twice s u⟩
  · rw [add_url_twice s u, add_url_eq, hcanon, hfresh]
    simp only [Bool.false_eq_true, if_false, List.filter_append, hfilter, List.nil_append]
    simp [List.filter]
  · rw [add_url_twice s u, add_url_eq, hcanon, hfresh]
    simp only [Bool.false_eq_true, if_false]
    simp [List.count_append, hq]

/-- Witness for C5 at the empty frontier and a concrete canonical URL. -/
theorem enqueue_idempotent_witness :
    ((add_url (add_url ⟨[], []⟩ "https://www.ics.uci.edu/") "https://www.ics.uci.edu/").save.filter
        (fun e => e.key == get_urlhash "https://www.ics.uci.edu/")).length = 1 ∧
    (add_url (add_url ⟨[], []⟩ "https://www.ics.uci.edu/")
        "https://www.ics.uci.edu/").queue.count "https://www.ics.uci.edu/" = 1 ∧
    add_url (add_url ⟨[], []⟩ "https://www.ics.uci.edu/") "https://www.ics.uci.edu/"
      = add_url ⟨[], []⟩ "https://www.ics.uci.edu/" :=
  enqueue_idempotent ⟨[], []⟩ "https://www.ics.uci.edu/" (by decide) (by decide) (by decide)

/-! ### C10: enqueue normalizes before hashing, markComplete does not -/

/-- C10: `add_url` hashes the normalized URL while `mark_url_complete`
hashes the URL exactly as given, so for a URL `u` whose normalized form
differs from `u`, `add_url(u)` followed by `mark_url_complete(u)` leaves
the record keyed by the normalized hash incomplete and inserts a second,
completed record keyed by the raw hash. -/
theorem add_then_mark_asymmetry (s : FrState) (u : String)
    (hne : normalize u ≠ u)
    (h1 : saveLookup s.save (get_urlhash (normalize u)) = none)
    (h2 : saveLookup s.save (get_urlhash u) = none) :
    saveLookup (mark_url_complete (add_url s u) u).save (get_urlhash (normalize u))
      = some (normalize u, false) ∧
    saveLookup (mark_url_complete (add_url s u) u).save (get_urlhash u)
      = some (u, true) := by
  have hne' : get_urlhash (normalize u) ≠ get_urlhash u := hne
  have hfresh : saveHasKey s.save (get_urlhash (normalize u)) = false := by
    rw [saveHasKey_eq_isSome, h1]
    rfl
  have hsave : (add_url s u).save
      = s.save ++ [⟨get_urlhash (normalize u), normalize u, false⟩] := by
    rw [add_url_eq, if_neg (by simp [hfresh])]
  rw [mark_url_complete_eq]
  constructor
  · show saveLookup (saveUpsert (get_urlhash u) u true (add_url s u).save)
        (get_urlhash (normalize u)) = some (normalize u, false)
    rw [saveUpsert_lookup_other _ _ _ _ _ hne', hsave,
      saveLookup_append_right _ _ _ h1]
    simp [saveLookup]
  · exact saveUpsert_lookup_self _ _ _ _

/-- Witness for C10: `u = "https://a.com/p#frag"` normalizes to
`"https://a.com/p"`; from the empty frontier the two records end up under
the two different hash keys, the normalized one still incomplete. -/
theorem add_then_mark_asymmetry_witness :
    saveLookup (mark_url_complete (add_url ⟨[], []⟩ "https://a.com/p#frag")
        "https://a.com/p#frag").save (get_urlhash (normalize "https://a.com/p#frag"))
      = some (normalize "https://a.com/p#frag", false) ∧
    saveLookup (mark_url_complete (add_url ⟨[], []⟩ "https://a.com/p#frag")
        "https://a.com/p#frag").save (get_urlhash "https://a.com/p#frag")
      = some ("https://a.com/p#frag", true) :=
  add_then_mark_asymmetry ⟨[], []⟩ "https://a.com/p#frag" (by decide) (by decide) (by decide)

/-! ### C8: the record-ledger invariant -/

theorem execOp_keys_nodup (s : FrState) (op : FrontierLedgerOp)
    (h : (saveKeys s.save).Nodup) : (saveKeys (execOp s op).save).Nodup := by
  cases op with
  | add u =>
    show (saveKeys (add_url s u).save).Nodup
    rw [add_url_eq]
    by_cases hk : saveHasKey s.save (get_urlhash (normalize u))
    · rw [if_pos hk]
      exact h
    · rw [if_neg hk]
      have hkf : saveHasKey s.save (get_urlhash (normalize u)) = false := by simpa using hk
      have hnotin := (saveHasKey_false_iff _ _).mp hkf
      simp only [saveKeys, List.map_append, List.map_cons, List.map_nil]
      rw [List.nodup_append]
      refine ⟨h, List.nodup_singleton _, ?_⟩
      intro a ha hb
      simp only [List.mem_singleton] at hb
      subst hb
      exact hnotin ha
  | markComplete u =>
    show (saveKeys (mark_url_complete s u).save).Nodup
    rw [mark_url_complete_eq]
    show (saveKeys (saveUpsert (get_urlhash u) u true s.save)).Nodup
    rw [saveUpsert_keys]
    by_cases hk : saveHasKey s.save (get_urlhash u)
    · rw [if_pos hk]
      exact h
    · rw [if_neg hk]
      have hkf : saveHasKey s.save (get_urlhash u) = false := by simpa using hk
      have hnotin := (saveHasKey_false_iff _ _).mp hkf
      rw [List.nodup_append]
      refine ⟨h, List.nodup_singleton _, ?_⟩
      intro a ha hb
      simp only [List.mem_singleton] at hb
      subst hb
      exact hnotin ha

theorem execOp_completed_stays (s : FrState) (op : FrontierLedgerOp) (k w : String)
    (h : saveLookup s.save k = some (w, true)) :
    ∃ w', saveLookup (execOp s op).save k = some (w', true) := by
  cases op with
  | add u =>
    show ∃ w', saveLookup (add_url s u).save k = some (w', true)
    rw [add_url_eq]
    by_cases hk : saveHasKey s.save (get_urlhash (normalize u))
    · rw [if_pos hk]
      exact ⟨w, h⟩
    · rw [if_neg hk]
      exact ⟨w, saveLookup_append_left _ _ _ _ h⟩
  | markComplete u =>
    show ∃ w', saveLookup (mark_url_complete s u).save k = some (w', true)
    rw [mark_url_complete_eq]
    by_cases hk : k = get_urlhash u
    · refine ⟨u, ?_⟩
      show saveLookup (saveUpsert (get_urlhash u) u true s.save) k = some (u, true)
      rw [hk]
      exact saveUpsert_lookup_self _ _ _ _
    · refine ⟨w, ?_⟩
      show saveLookup (saveUpsert (get_urlhash u) u true s.save) k = some (w, true)
      rw [saveUpsert_lookup_other _ _ _ _ _ hk]
      exact h

theorem execOp_no_delete (s : FrState) (op : FrontierLedgerOp) (k : String)
    (v : String × Bool) (h : saveLookup s.save k = some v) :
    (saveLookup (execOp s op).save k).isSome = true := by
  cases op with
  | add u =>
    show (saveLookup (add_url s u).save k).isSome = true
    rw [add_url_eq]
    by_cases hk : saveHasKey s.save (get_urlhash (normalize u))
    · rw [if_pos hk, h]
      rfl
    · rw [if_neg hk]
      show (saveLookup (s.save ++ _) k).isSome = true
      rw [saveLookup_append_left _ _ _ _ h]
      rfl
  | markComplete u =>
    show (saveLookup (mark_url_complete s u).save k).isSome = true
    rw [mark_url_complete_eq]
    by_cases hk : k = get_urlhash u
    · show (saveLookup (saveUpsert (get_urlhash u) u true s.save) k).isSome = true
      rw [hk, saveUpsert_lookup_self]
      rfl
    · show (saveLookup (saveUpsert (get_urlhash u) u true s.save) k).isSome = true
      rw [saveUpsert_lookup_other _ _ _ _ _ hk, h]
      rfl

theorem execOps_keys_nodup (ops : List FrontierLedgerOp) :
    (saveKeys (execOps ops).save).Nodup := by
  suffices h : ∀ (s : FrState), (saveKeys s.save).Nodup →
      (saveKeys (ops.foldl execOp s).save).Nodup by
    exact h ⟨[], []⟩ (by simp [saveKeys])
  induction ops with
  | nil => intro s hs; exact hs
  | cons op rest ih =>
    intro s hs
    exact ih (execOp s op) (execOp_keys_nodup s op hs)

theorem execOps_append_single (ops : List FrontierLedgerOp) (op : FrontierLedgerOp) :
    execOps (ops ++ [op]) = execOp (execOps ops) op := by
  unfold execOps
  rw [List.foldl_append]
  rfl

/-- C8: every sequence of `add_url`/`mark_url_complete` operations from
the empty frontier keeps exactly one record per hash key (the key sequence
stays duplicate-free), a record whose `completed` flag is true keeps a
true flag across any further operation (so `completed` only transitions
false to true), and no record is ever deleted. -/
theorem record_ledger_invariant (ops : List FrontierLedgerOp) :
    (saveKeys (execOps ops).save).Nodup ∧
    (∀ (op : FrontierLedgerOp) (k w : String),
      saveLookup (execOps ops).save k = some (w, true) →
      ∃ w', saveLookup (execOps (ops ++ [op])).save k = some (w', true)) ∧
    (∀ (op : FrontierLedgerOp) (k : String) (v : String × Bool),
      saveLookup (execOps ops).save k = some v →
      (saveLookup (execOps (ops ++ [op])).save k).isSome = true) := by
  refine ⟨execOps_keys_nodup ops, ?_, ?_⟩
  · intro op k w h
    rw [execOps_append_single]
    exact execOp_completed_stays _ op k w h
  · intro op k v h
    rw [execOps_append_single]
    exact execOp_no_delete _ op k v h

/-- Witness for C8: after `add_url` then `mark_url_complete` on a
concrete URL, a further `add_url` of the same URL neither reverts the
completed flag nor deletes the record. -/
theorem record_ledger_invariant_witness :
    (∃ w', saveLookup (execOps ([.add "https://a.com/x", .markComplete "https://a.com/x"]
        ++ [.add "https://a.com/x"])).save "https://a.com/x" = some (w', true)) ∧
    (saveLookup (execOps ([.add "https://a.com/x", .markComplete "https://a.com/x"]
        ++ [.add "https://a.com/x"])).save "https://a.com/x").isSome = true :=
  ⟨(record_ledger_invariant [.add "https://a.com/x", .markComplete "https://a.com/x"]).2.1
      (.add "https://a.com/x") "https://a.com/x" "https://a.com/x" (by decide),
   (record_ledger_invariant [.add "https://a.com/x", .markComplete "https://a.com/x"]).2.2
      (.add "https://a.com/x") "https://a.com/x" ("https://a.com/x", true) (by decide)⟩

/-! ### C6: crash recovery -/

/-- The incomplete records' URLs that pass the stateless validator — what
`_parse_save_file` actually pushes onto the queue at restart (when the
scraper's `seen_urls` state is fresh). -/
def validPending (save : List SaveEntry) : List String :=
  ((save.filter (fun e => !e.completed)).map SaveEntry.url).filter
    (fun u => is_valid_pure (normalize_url u))

/-- Unfolding equation for `frontierInit` without the restart flag. -/
theorem frontierInit_false_eq (save : List SaveEntry) (seeds : List String)
    (seen : List String) :
    frontierInit save seeds false seen =
      (if (parseSaveFile save seen).1.isEmpty
       then seeds.foldl add_url ⟨save, (parseSaveFile save seen).1⟩
       else ⟨save, (parseSaveFile save seen).1⟩) := rfl

/-- With pairwise-distinct normalized forms, all fresh with respect to the
initial seen-set, the `seen_urls` threading of `_parse_save_file` reduces
to the stateless filter. -/
theorem parseSaveFile_eq_filter (save : List SaveEntry) : ∀ (seen : List String),
    (∀ e ∈ save, e.completed = false → normalize_url e.url ∉ seen) →
    ((save.filter (fun e => !e.completed)).Pairwise
      (fun a b => normalize_url a.url ≠ normalize_url b.url)) →
    (parseSaveFile save seen).1
      = ((save.filter (fun e => !e.completed)).map SaveEntry.url).filter
          (fun u => is_valid_pure (normalize_url u)) := by
  induction save with
  | nil =>
    intro seen _ _
    rfl
  | cons e rest ih =>
    intro seen hfresh hdist
    obtain ⟨k0, u0, c0⟩ := e
    cases c0 with
    | true =>
      have hskip : parseSaveFile (⟨k0, u0, true⟩ :: rest) seen = parseSaveFile rest seen := rfl
      have hfilt : (⟨k0, u0, true⟩ :: rest).filter (fun e => !e.completed)
          = rest.filter (fun e => !e.completed) := rfl
      rw [hskip, hfilt]
      rw [hfilt] at hdist
      exact ih seen (fun e' he' => hfresh e' (List.mem_cons_of_mem _ he')) hdist
    | false =>
      have hmem : normalize_url u0 ∉ seen :=
        hfresh ⟨k0, u0, false⟩ (List.mem_cons_self _ _) rfl
      have hiv : is_valid seen u0
          = (is_valid_pure (normalize_url u0), normalize_url u0 :: seen) := by
        rw [is_valid_eq, if_neg hmem]
      have hfilt : (⟨k0, u0, false⟩ :: rest).filter (fun e => !e.completed)
          = ⟨k0, u0, false⟩ :: rest.filter (fun e => !e.completed) := rfl
      rw [hfilt] at hdist
      rw [List.pairwise_cons] at hdist
      have hfresh' : ∀ e' ∈ rest, e'.completed = false →
          normalize_url e'.url ∉ normalize_url u0 :: seen := by
        intro e' he' hc'
        rw [List.mem_cons, not_or]
        constructor
        · intro heq
          exact hdist.1 e' (List.mem_filter.mpr ⟨he', by simp [hc']⟩) heq.symm
        · exact hfresh e' (List.mem_cons_of_mem _ he') hc'
      have hrec := ih (normalize_url u0 :: seen) hfresh' hdist.2
      show (match is_valid seen u0 with
        | (b, seen') =>
          match parseSaveFile rest seen' with
          | (q, seen'') => (if b then u0 :: q else q, seen'')).1
        = ((⟨k0, u0, false⟩ :: rest.filter (fun e => !e.completed)).map
            SaveEntry.url).filter (fun u => is_valid_pure (normalize_url u))
      rw [hiv]
      show (match parseSaveFile rest (normalize_url u0 :: seen) with
        | (q, seen'') => (if is_valid_pure (normalize_url u0) then u0 :: q else q, seen'')).1
        = (u0 :: (rest.filter (fun e => !e.completed)).map SaveEntry.url).filter
            (fun u => is_valid_pure (normalize_url u))
      cases hps : parseSaveFile rest (normalize_url u0 :: seen) with
      | mk q seen2 =>
        rw [hps] at hrec
        by_cases hb : is_valid_pure (normalize_url u0)
        · simp only [hb, if_true, List.filter_cons, if_pos]
          rw [show (q, seen2).1 = q from rfl] at hrec
          simp [hb, hrec]
        · have hbf : is_valid_pure (normalize_url u0) = false := by simpa using hb
          rw [show (q, seen2).1 = q from rfl] at hrec
          simp [hbf, hrec, List.filter_cons]

/-- C6, counterexample: a durable store holding one incomplete record for
`https://a.com/x.pdf` (N = 1, M = 0).  The claim requires the Pending
Queue to be exactly that URL, with the seed fallback only for an empty
backlog; but `_parse_save_file` runs each URL through the validator, the
`.pdf` extension is rejected, the scan queues nothing, and the queue ends
up holding the seed instead. -/
theorem crash_recovery_counterexample :
    (frontierInit [⟨"https://a.com/x.pdf", "https://a.com/x.pdf", false⟩]
        ["https://seed.org/"] false []).queue = ["https://seed.org/"] := by decide


theorem saveHasKey_of_mem (l : List SaveEntry) (e : SaveEntry) (he : e ∈ l) :
    saveHasKey l e.key = true := by
  simp only [saveHasKey, List.any_eq_true]
  exact ⟨e, he, by simp⟩

theorem add_url_hasKey_mono (s : FrState) (u : String) (k : String)
    (h : saveHasKey s.save k = true) : saveHasKey (add_url s u).save k = true := by
  rw [add_url_eq]
  by_cases hk : saveHasKey s.save (get_urlhash (normalize u))
  · rw [if_pos hk]
    exact h
  · rw [if_neg hk]
    show saveHasKey (s.save ++ _) k = true
    simp only [saveHasKey, List.any_append, Bool.or_eq_true]
    left
    exact h

/-- A URL in the queue after seeding was either queued before or had no
record in the original store. -/
theorem foldl_add_url_queue (seeds : List String) : ∀ (s : FrState) (x : String),
    x ∈ (seeds.foldl add_url s).queue →
    x ∈ s.queue ∨ saveHasKey s.save (get_urlhash x) = false := by
  induction seeds with
  | nil =>
    intro s x hx
    exact Or.inl hx
  | cons seed rest ih =>
    intro s x hx
    rcases ih (add_url s seed) x hx with hq | hk
    · rw [add_url_eq] at hq
      by_cases hkk : saveHasKey s.save (get_urlhash (normalize seed))
      · rw [if_pos hkk] at hq
        exact Or.inl hq
      · rw [if_neg hkk] at hq
        rcases List.mem_append.mp hq with h1 | h2
        · exact Or.inl h1
        · right
          rw [List.mem_singleton] at h2
          subst h2
          simpa using hkk
    · right
      by_cases hs : saveHasKey s.save (get_urlhash x) = true
      · exact absurd (add_url_hasKey_mono s seed _ hs) (by simp [hk])
      · simpa using hs

/-- C6, amended: re-initializing without the restart flag from a
well-formed store (keys are the hashes of the stored URLs, no duplicate
keys, incomplete URLs stored in normalized form) yields a Pending Queue
that is exactly the incomplete canonical URLs passing the Validator (in
store order) and never contains a completed record's URL; only when that
backlog is empty does it fall back to enqueueing the seeds. -/
theorem crash_recovery (save : List SaveEntry) (seeds : List String)
    (hwf : ∀ e ∈ save, e.key = get_urlhash e.url)
    (hnodup : (saveKeys save).Nodup)
    (hnorm : ∀ e ∈ save, e.completed = false → normalize_url e.url = e.url) :
    (validPending save ≠ [] →
      (frontierInit save seeds false []).queue = validPending save) ∧
    (∀ e ∈ save, e.completed = true →
      e.url ∉ (frontierInit save seeds false []).queue) ∧
    (validPending save = [] →
      frontierInit save seeds false [] = seeds.foldl add_url ⟨save, []⟩) := by
  have hpairkey : save.Pairwise (fun a b => a.key ≠ b.key) := by
    have h := hnodup
    rw [saveKeys, List.Nodup, List.pairwise_map] at h
    exact h
  have hdist : (save.filter (fun e => !e.completed)).Pairwise
      (fun a b => normalize_url a.url ≠ normalize_url b.url) := by
    refine List.Pairwise.imp_of_mem ?_ (List.Pairwise.filter _ hpairkey)
    intro a b ha hb hne
    have hamem : a ∈ save := (List.mem_filter.mp ha).1
    have hbmem : b ∈ save := (List.mem_filter.mp hb).1
    have hca : a.completed = false := by
      have h := (List.mem_filter.mp ha).2
      simpa using h
    have hcb : b.completed = false := by
      have h := (List.mem_filter.mp hb).2
      simpa using h
    rw [hnorm a hamem hca, hnorm b hbmem hcb]
    have hka : a.key = a.url := hwf a hamem
    have hkb : b.key = b.url := hwf b hbmem
    rw [← hka, ← hkb]
    exact hne
  have hthread : (parseSaveFile save []).1 = validPending save :=
    parseSaveFile_eq_filter save [] (fun e _ _ => List.not_mem_nil _) hdist
  refine ⟨?_, ?_, ?_⟩
  · intro hne
    rw [frontierInit_false_eq, hthread]
    cases hvp : validPending save with
    | nil => exact absurd hvp hne
    | cons x xs => simp [hvp]
  · intro e he hc hq
    rw [frontierInit_false_eq, hthread] at hq
    by_cases hvp : validPending save = []
    · rw [hvp] at hq
      simp only [List.isEmpty_nil, if_true] at hq
      rcases foldl_add_url_queue seeds ⟨save, []⟩ e.url hq with hin | hkey
      · exact List.not_mem_nil _ hin
      · have hkey' : saveHasKey save (get_urlhash e.url) = false := hkey
        have hhk : saveHasKey save (get_urlhash e.url) = true := by
          rw [← hwf e he]
          exact saveHasKey_of_mem save e he
        rw [hhk] at hkey'
        exact Bool.noConfusion hkey'
    · cases hvpe : validPending save with
      | nil => exact absurd hvpe hvp
      | cons x xs =>
        rw [hvpe] at hq
        simp only [List.isEmpty_cons, Bool.false_eq_true, if_false] at hq
        have hq' : e.url ∈ validPending save := by
          rw [hvpe]
          exact hq
        rcases List.mem_filter.mp hq' with ⟨hmap, _⟩
        rcases List.mem_map.mp hmap with ⟨e', he', hurl⟩
        rcases List.mem_filter.mp he' with ⟨hemem', heinc'⟩
        have hinc : e'.completed = false := by simpa using heinc'
        have hkeq : e.key = e'.key := by
          rw [hwf e he, hwf e' hemem', hurl]
        have heq : e = e' := List.inj_on_of_nodup_map hnodup he hemem' hkeq
        rw [heq, hinc] at hc
        exact Bool.noConfusion hc
  · intro hvp
    rw [frontierInit_false_eq, hthread, hvp]
    simp

/-- Witness for C6's amended theorem, at two concrete stores: a store with
one valid incomplete record and one completed record (queue is exactly the
incomplete URL, the completed URL absent), and a store whose only
incomplete record is a rejected `.pdf` (fallback to the seeds). -/
theorem crash_recovery_witness :
    (frontierInit [⟨"https://a.com/good.html", "https://a.com/good.html", false⟩,
        ⟨"https://a.com/done.html", "https://a.com/done.html", true⟩]
        ["https://seed.org/"] false []).queue = ["https://a.com/good.html"] ∧
    "https://a.com/done.html" ∉ (frontierInit
        [⟨"https://a.com/good.html", "https://a.com/good.html", false⟩,
         ⟨"https://a.com/done.html", "https://a.com/done.html", true⟩]
        ["https://seed.org/"] false []).queue ∧
    frontierInit [⟨"https://a.com/x.pdf", "https://a.com/x.pdf", false⟩]
        ["https://seed.org/"] false []
      = ["https://seed.org/"].foldl add_url
          ⟨[⟨"https://a.com/x.pdf", "https://a.com/x.pdf", false⟩], []⟩ :=
  ⟨(crash_recovery
      [⟨"https://a.com/good.html", "https://a.com/good.html", false⟩,
       ⟨"https://a.com/done.html", "https://a.com/done.html", true⟩]
      ["https://seed.org/"] (by decide) (by decide) (by decide)).1 (by decide),
   (crash_recovery
      [⟨"https://a.com/good.html", "https://a.com/good.html", false⟩,
       ⟨"https://a.com/done.html", "https://a.com/done.html", true⟩]
      ["https://seed.org/"] (by decide) (by decide) (by decide)).2.1
      ⟨"https://a.com/done.html", "https://a.com/done.html", true⟩ (by decide) (by decide),
   (crash_recovery [⟨"https://a.com/x.pdf", "https://a.com/x.pdf", false⟩]
      ["https://seed.org/"] (by decide) (by decide) (by decide)).2.2 (by decide)⟩

/-! ### C2: the politeness invariant of `get_tbd_url` -/

/-- Unfolding equation for a `get_tbd_url` attempt on a nonempty queue. -/
theorem getAttempts_cons_cons (u : String) (qq : List String)
    (last : List (String × Nat)) (now : Nat) (rest : List Nat) :
    getAttempts ⟨u :: qq, last⟩ (now :: rest) =
      if now < lookupLast last (domainOf u) + POLITENESS_MS then
        getAttempts ⟨qq ++ [u], last⟩ rest
      else
        (now, u) :: getAttempts ⟨qq, setLast last (domainOf u) now⟩ rest := rfl

theorem isMonotone_tail (a : Nat) (ts : List Nat) (h : isMonotone (a :: ts) = true) :
    isMonotone ts = true := by
  cases ts with
  | nil => rfl
  | cons b r =>
    have h' : (decide (a ≤ b) && isMonotone (b :: r)) = true := h
    simp only [Bool.and_eq_true] at h'
    exact h'.2

theorem isMonotone_head_le (a : Nat) (ts : List Nat) (h : isMonotone (a :: ts) = true) :
    ∀ t ∈ ts, a ≤ t := by
  induction ts generalizing a with
  | nil =>
    intro t ht
    exact absurd ht (List.not_mem_nil t)
  | cons b r ih =>
    intro t ht
    have h' : (decide (a ≤ b) && isMonotone (b :: r)) = true := h
    simp only [Bool.and_eq_true, decide_eq_true_eq] at h'
    rcases List.mem_cons.mp ht with rfl | htr
    · exact h'.1
    · exact le_trans h'.1 (ih b h'.2 t htr)

theorem lookupLast_setLast_self (m : List (String × Nat)) (d : String) (t : Nat) :
    lookupLast (setLast m d t) d = t := by
  induction m with
  | nil => simp [setLast, lookupLast]
  | cons p rest ih =>
    obtain ⟨k, v⟩ := p
    by_cases h : k = d
    · simp [setLast, lookupLast, h]
    · simp [setLast, lookupLast, h, ih]

theorem lookupLast_setLast_other (m : List (String × Nat)) (d : String) (t : Nat)
    (d' : String) (h : d' ≠ d) :
    lookupLast (setLast m d t) d' = lookupLast m d' := by
  induction m with
  | nil => simp [setLast, lookupLast, Ne.symm h]
  | cons p rest ih =>
    obtain ⟨k, v⟩ := p
    by_cases hk : k = d
    · subst hk
      have hne : ¬(k = d') := Ne.symm h
      simp [setLast, lookupLast, hne]
    · by_cases hk' : k = d'
      · subst hk'
        simp [setLast, lookupLast, hk, h]
      · simp [setLast, lookupLast, hk, hk', ih]

theorem mem_setLast (m : List (String × Nat)) (d : String) (t : Nat) (p : String × Nat)
    (hp : p ∈ setLast m d t) : p.2 = t ∨ p ∈ m := by
  induction m with
  | nil =>
    left
    rw [show setLast [] d t = [(d, t)] from rfl, List.mem_singleton] at hp
    rw [hp]
  | cons q rest ih =>
    obtain ⟨k, v⟩ := q
    by_cases hk : k = d
    · rw [show setLast ((k, v) :: rest) d t = (d, t) :: rest by simp [setLast, hk]] at hp
      rcases List.mem_cons.mp hp with rfl | hm
      · exact Or.inl rfl
      · exact Or.inr (List.mem_cons_of_mem _ hm)
    · rw [show setLast ((k, v) :: rest) d t = (k, v) :: setLast rest d t by
        simp [setLast, hk]] at hp
      rcases List.mem_cons.mp hp with rfl | hm
      · exact Or.inr (List.mem_cons_self _ _)
      · rcases ih hm with h2 | h3
        · exact Or.inl h2
        · exact Or.inr (List.mem_cons_of_mem _ h3)

/-- After the clock records a last access for domain `d`, every later
return for `d` comes at least the politeness interval after that record
(times nondecreasing and never before the recorded access). -/
theorem getAttempts_domain_lower (ts : List Nat) : ∀ (s : PoliteState) (d : String),
    isMonotone ts = true →
    (∀ t ∈ ts, lookupLast s.last d ≤ t) →
    ∀ p ∈ getAttempts s ts, domainOf p.2 = d →
    lookupLast s.last d + POLITENESS_MS ≤ p.1 := by
  induction ts with
  | nil =>
    intro s d _ _ p hp
    exact absurd hp (List.not_mem_nil p)
  | cons now rest ih =>
    intro s d hmono hlow p hp hdom
    obtain ⟨queue, last⟩ := s
    dsimp only at hlow hp ⊢
    have hmono' := isMonotone_tail now rest hmono
    cases queue with
    | nil =>
      exact ih ⟨[], last⟩ d hmono'
        (fun t ht => hlow t (List.mem_cons_of_mem _ ht)) p hp hdom
    | cons u qq =>
      rw [getAttempts_cons_cons] at hp
      by_cases hwait : now < lookupLast last (domainOf u) + POLITENESS_MS
      · rw [if_pos hwait] at hp
        exact ih ⟨qq ++ [u], last⟩ d hmono'
          (fun t ht => hlow t (List.mem_cons_of_mem _ ht)) p hp hdom
      · rw [if_neg hwait] at hp
        rcases List.mem_cons.mp hp with rfl | htail
        · show lookupLast last d + POLITENESS_MS ≤ now
          rw [show domainOf (now, u).2 = domainOf u from rfl] at hdom
          rw [← hdom]
          exact Nat.le_of_not_lt hwait
        · by_cases hdu : domainOf u = d
          · have hlk : lookupLast (setLast last (domainOf u) now) d = now := by
              rw [← hdu]
              exact lookupLast_setLast_self last (domainOf u) now
            have hlows : ∀ t ∈ rest,
                lookupLast (setLast last (domainOf u) now) d ≤ t := by
              intro t ht
              rw [hlk]
              exact isMonotone_head_le now rest hmono t ht
            have hih := ih ⟨qq, setLast last (domainOf u) now⟩ d hmono' hlows p htail hdom
            dsimp only at hih
            rw [hlk] at hih
            have hnow : lookupLast last d ≤ now := hlow now (List.mem_cons_self _ _)
            omega
          · have hlk : lookupLast (setLast last (domainOf u) now) d = lookupLast last d :=
              lookupLast_setLast_other last (domainOf u) now d (fun hdd => hdu hdd.symm)
            have hlows : ∀ t ∈ rest,
                lookupLast (setLast last (domainOf u) now) d ≤ t := by
              intro t ht
              rw [hlk]
              exact hlow t (List.mem_cons_of_mem _ ht)
            have hih := ih ⟨qq, setLast last (domainOf u) now⟩ d hmono' hlows p htail hdom
            dsimp only at hih
            rw [hlk] at hih
            exact hih

/-- Generalized politeness invariant over any starting state whose
recorded last-access times do not exceed the attempt times. -/
theorem getAttempts_politeness_aux (ts : List Nat) : ∀ (s : PoliteState)
    (pre mid post : List (Nat × String)) (t1 t2 : Nat) (u1 u2 : String),
    isMonotone ts = true →
    (∀ pr ∈ s.last, ∀ t ∈ ts, pr.2 ≤ t) →
    getAttempts s ts = pre ++ (t1, u1) :: mid ++ (t2, u2) :: post →
    domainOf u1 = domainOf u2 →
    t1 + POLITENESS_MS ≤ t2 := by
  induction ts with
  | nil =>
    intro s pre mid post t1 t2 u1 u2 _ _ heq _
    rw [show getAttempts s [] = [] from by cases s; rfl] at heq
    cases pre <;> simp at heq
  | cons now rest ih =>
    intro s pre mid post t1 t2 u1 u2 hmono hinv heq hdom
    obtain ⟨queue, last⟩ := s
    dsimp only at hinv heq
    have hmono' := isMonotone_tail now rest hmono
    cases queue with
    | nil =>
      exact ih ⟨[], last⟩ pre mid post t1 t2 u1 u2 hmono'
        (fun pr hpr t ht => hinv pr hpr t (List.mem_cons_of_mem _ ht)) heq hdom
    | cons u qq =>
      rw [getAttempts_cons_cons] at heq
      by_cases hwait : now < lookupLast last (domainOf u) + POLITENESS_MS
      · rw [if_pos hwait] at heq
        exact ih ⟨qq ++ [u], last⟩ pre mid post t1 t2 u1 u2 hmono'
          (fun pr hpr t ht => hinv pr hpr t (List.mem_cons_of_mem _ ht)) heq hdom
      · rw [if_neg hwait] at heq
        have hinv' : ∀ pr ∈ setLast last (domainOf u) now, ∀ t ∈ rest, pr.2 ≤ t := by
          intro pr hpr t ht
          rcases mem_setLast last (domainOf u) now pr hpr with h2 | hm
          · rw [h2]
            exact isMonotone_head_le now rest hmono t ht
          · exact hinv pr hm t (List.mem_cons_of_mem _ ht)
        cases pre with
        | nil =>
          rw [List.nil_append] at heq
          injection heq with hhead htail
          injection hhead with hteq hueq
          rw [← hteq]
          have hdomu : domainOf u2 = domainOf u := by
            rw [← hueq] at hdom
            exact hdom.symm
          have hmem : (t2, u2) ∈ getAttempts ⟨qq, setLast last (domainOf u) now⟩ rest := by
            rw [htail]
            exact List.mem_append_right _ (List.mem_cons_self _ _)
          have hlk : lookupLast (setLast last (domainOf u) now) (domainOf u) = now :=
            lookupLast_setLast_self last (domainOf u) now
          have hlows : ∀ t ∈ rest,
              lookupLast (setLast last (domainOf u) now) (domainOf u) ≤ t := by
            intro t ht
            rw [hlk]
            exact isMonotone_head_le now rest hmono t ht
          have hlb := getAttempts_domain_lower rest ⟨qq, setLast last (domainOf u) now⟩
            (domainOf u) hmono' hlows (t2, u2) hmem hdomu
          dsimp only at hlb
          rw [hlk] at hlb
          exact hlb
        | cons x pre' =>
          rw [List.cons_append] at heq
          injection heq with _ htail
          exact ih ⟨qq, setLast last (domainOf u) now⟩ pre' mid post t1 t2 u1 u2
            hmono' hinv' htail hdom

/-- C2: for every initial queue and nondecreasing sequence of attempt
times, if `get_tbd_url` returns `u1` at time `t1` and later `u2` at time
`t2` with the same domain, then at least the politeness interval (500 ms,
the hardcoded 0.5 s of `get_tbd_url`) separates the two returns. -/
theorem politeness_invariant (q0 : List String) (ts : List Nat)
    (pre mid post : List (Nat × String)) (t1 t2 : Nat) (u1 u2 : String)
    (hmono : isMonotone ts = true)
    (heq : getAttempts ⟨q0, []⟩ ts = pre ++ (t1, u1) :: mid ++ (t2, u2) :: post)
    (hdom : domainOf u1 = domainOf u2) :
    t1 + POLITENESS_MS ≤ t2 :=
  getAttempts_politeness_aux ts ⟨q0, []⟩ pre mid post t1 t2 u1 u2 hmono
    (fun pr hpr => absurd hpr (List.not_mem_nil pr)) heq hdom

/-- Witness for C2: two same-domain URLs; the second is popped at time 600
but requeued (too soon after the first return at 500) and only returned at
1000, at least 500 ms later. -/
theorem politeness_invariant_witness :
    500 + POLITENESS_MS ≤ 1000 :=
  politeness_invariant ["https://a.com/x", "https://a.com/y"] [500, 600, 1000]
    [] [] [] 500 1000 "https://a.com/x" "https://a.com/y"
    (by decide) (by decide) (by decide)

end Crawler
